/-
  Verification of the chart-core numeric kernel of Constellation_Chart.

  The Rust sources (crates/chart-core/src/{series,downsample,scale,view,chart}.rs)
  are shallowly embedded here.  Machine floats (f32/f64) are modelled as exact
  rationals (ℚ) for the purely algebraic code, and as reals (ℝ) where the code
  uses log10 / 10^x.  Non-finite floats appear only in `nice_ticks`, whose
  argument type `F64` models them explicitly.
-/
import Mathlib

namespace ChartCore

/-! ## series.rs : Candle and its fallible constructor -/

/-- Structure `Candle` from series.rs: time, open, high, low, close (f64 fields modelled as ℚ). -/
structure Candle where
  t : ℚ
  o : ℚ
  h : ℚ
  l : ℚ
  c : ℚ
deriving DecidableEq, Repr

/-- Constructor `Candle::try_new` from series.rs: enforce `l ≤ min(o,c)`, `h ≥ max(o,c)`, `l ≤ h`,
returning the candle or one of three static error strings. -/
def Candle.try_new (t o h l c : ℚ) : Except String Candle :=
  let lo := min o c
  let hi := max o c
  if l > lo then .error "low above min(open,close)"
  else if h < hi then .error "high below max(open,close)"
  else if l > h then .error "low above high"
  else .ok ⟨t, o, h, l, c⟩

/-- The OHLC invariant on a candle, as stated in series.rs' doc comment. -/
def Candle.valid (x : Candle) : Prop :=
  x.l ≤ min x.o x.c ∧ max x.o x.c ≤ x.h ∧ x.l ≤ x.h

instance : DecidablePred Candle.valid := fun x => by
  unfold Candle.valid; infer_instance

/-! ## downsample.rs : OHLC bucket aggregation

The Rust `while` loop walks the candle list in windows of `bucket` candles
(the final window may be shorter); the embedding consumes the list window by
window.  `mkBucket first rest` is the body of one iteration: `first = data[i]`,
`rest = data[i+1..j]`. -/

/-- One loop iteration of `aggregate_ohlc_buckets`: fold min/max of lows/highs
over the window, take `t`/`o` from the first and `c` from the last candle. -/
def mkBucket (first : Candle) (rest : List Candle) : Candle :=
  { t := first.t
    o := first.o
    h := rest.foldl (fun acc k => max acc k.h) first.h
    l := rest.foldl (fun acc k => min acc k.l) first.l
    c := (rest.getLast?.getD first).c }

/-- The aggregation loop of `aggregate_ohlc_buckets` (`while i < n`), with the
window `[i, min(i+bucket, n))` split as head plus `bucket - 1` following candles. -/
def aggLoop (bucket : ℕ) : List Candle → List Candle
  | [] => []
  | d :: ds => mkBucket d (ds.take (bucket - 1)) :: aggLoop bucket (ds.drop (bucket - 1))
termination_by l => l.length
decreasing_by simp [List.length_drop]; omega

/-- Function `aggregate_ohlc_buckets` from downsample.rs. -/
def aggregate_ohlc_buckets (data : List Candle) (bucket : ℕ) : List Candle :=
  if bucket ≤ 1 ∨ data.length ≤ 2 then data
  else aggLoop bucket data

/-! ## scale.rs : TimeScale -/

/-- Rust `f32::clamp(x, lo, hi)` on rationals (no NaN in the model). -/
def clampQ (x lo hi : ℚ) : ℚ := min (max x lo) hi

/-- Structure `TimeScale` from scale.rs (f32/f64 fields modelled as ℚ). -/
structure TimeScale where
  left_px : ℚ
  start_logical : ℚ
  bar_spacing : ℚ
deriving DecidableEq, Repr

namespace TimeScale

/-- Constructor `TimeScale::new`: floors `bar_spacing` at 0.01. -/
def new (left_px start_logical bar_spacing : ℚ) : TimeScale :=
  ⟨left_px, start_logical, max bar_spacing (1/100)⟩

/-- Method `TimeScale::to_px`. -/
def to_px (s : TimeScale) (x : ℚ) : ℚ :=
  s.left_px + (x - s.start_logical) * s.bar_spacing

/-- Method `TimeScale::from_px`. -/
def from_px (s : TimeScale) (px : ℚ) : ℚ :=
  s.start_logical + (px - s.left_px) / s.bar_spacing

/-- Method `TimeScale::zoom_at`: clamp the new spacing to [0.5, 200], then re-derive
`start_logical` so the logical value under the cursor stays pixel-fixed. -/
def zoom_at (s : TimeScale) (cursor_px factor : ℚ) : TimeScale :=
  let cx := s.from_px cursor_px
  let new_spacing := clampQ (s.bar_spacing * factor) (1/2) 200
  { left_px := s.left_px
    start_logical := cx - (cursor_px - s.left_px) / new_spacing
    bar_spacing := new_spacing }

end TimeScale

/-! ## scale.rs : ValueScale

`ValueScale` mixes affine arithmetic with `log10`/`10^x`, so its fields are
modelled as ℝ; `Real.logb 10` embeds `f64::log10` and `(10:ℝ) ^ ·` (rpow)
embeds `10f64.powf`. -/

/-- Rust `f64::clamp`-style clamp on reals. -/
noncomputable def clampR (x lo hi : ℝ) : ℝ := min (max x lo) hi

/-- Structure `ValueScale` from scale.rs. -/
structure ValueScale where
  top_px : ℝ
  bottom_px : ℝ
  vmin : ℝ
  vmax : ℝ
  log : Bool
  log_min : ℝ
  log_max : ℝ

namespace ValueScale

/-- Constructor `ValueScale::new_linear`: degenerate range is expanded to span 1. -/
noncomputable def new_linear (top_px bottom_px vmin vmax : ℝ) : ValueScale :=
  if |vmax - vmin| < 1e-12 then
    ⟨top_px, bottom_px, vmin, vmin + 1, false, 0, 0⟩
  else
    ⟨top_px, bottom_px, vmin, vmax, false, 0, 0⟩

/-- Constructor `ValueScale::new_log10`: floor `vmin` at 1e-12, force `vmax > vmin`,
cache log endpoints. -/
noncomputable def new_log10 (top_px bottom_px vmin vmax : ℝ) : ValueScale :=
  let eps : ℝ := 1e-12
  let vmin' := if vmin ≤ eps then eps else vmin
  let vmax' := if vmax ≤ vmin' then vmin' * 10 else vmax
  ⟨top_px, bottom_px, vmin', vmax', true, Real.logb 10 vmin', Real.logb 10 vmax'⟩

/-- Method `ValueScale::to_px`. -/
noncomputable def to_px (s : ValueScale) (y : ℝ) : ℝ :=
  if s.log then
    let yy := Real.logb 10 (max y 1e-12)
    let span := max (s.log_max - s.log_min) 1e-12
    s.bottom_px - (yy - s.log_min) / span * (s.bottom_px - s.top_px)
  else
    let span := max (s.vmax - s.vmin) 1e-12
    s.bottom_px - (y - s.vmin) / span * (s.bottom_px - s.top_px)

/-- Method `ValueScale::from_px`. -/
noncomputable def from_px (s : ValueScale) (py : ℝ) : ℝ :=
  if s.log then
    let span := max (s.log_max - s.log_min) 1e-12
    let yy := s.log_min + (s.bottom_px - py) / (s.bottom_px - s.top_px) * span
    (10 : ℝ) ^ yy
  else
    let span := max (s.vmax - s.vmin) 1e-12
    s.vmin + (s.bottom_px - py) / (s.bottom_px - s.top_px) * span

end ValueScale

/-! ## view.rs : ViewState and zoom_at_pixel -/

/-- Structure `Insets` from types.rs (u32 fields). -/
structure Insets where
  left : ℕ
  right : ℕ
  top : ℕ
  bottom : ℕ
deriving DecidableEq, Repr

/-- Structure `ViewState` from view.rs (f64 fields modelled as ℚ). -/
structure ViewState where
  x_min : ℚ
  x_max : ℚ
  y_min : ℚ
  y_max : ℚ
deriving DecidableEq, Repr

namespace ViewState

/-- Method `ViewState::zoom_at_pixel` from view.rs: clamp the cursor into the plot
rect, read the logical anchor under it, scale both spans by
`clamp(1 - scroll, 0.1, 10)`, and re-anchor each axis at the same fraction. -/
def zoom_at_pixel (v : ViewState) (scroll cursor_x cursor_y : ℚ)
    (width height : ℤ) (insets : Insets) : ViewState :=
  let w : ℚ := width
  let h : ℚ := height
  let l : ℚ := insets.left
  let rpx : ℚ := w - insets.right
  let t : ℚ := insets.top
  let bpx : ℚ := h - insets.bottom
  let plot_w := max (rpx - l) 1
  let plot_h := max (bpx - t) 1
  let cx := clampQ cursor_x l rpx
  let cy := clampQ cursor_y t bpx
  let x_span := v.x_max - v.x_min
  let y_span := v.y_max - v.y_min
  let wx := v.x_min + (cx - l) / plot_w * x_span
  let wy := v.y_max - (cy - t) / plot_h * y_span
  let factor := clampQ (1 - scroll) (1/10) 10
  let nx := x_span * factor
  let ny := y_span * factor
  let rx := (wx - v.x_min) / x_span
  let ry := (v.y_max - wy) / y_span
  { x_min := wx - rx * nx
    x_max := (wx - rx * nx) + nx
    y_max := wy + ry * ny
    y_min := (wy + ry * ny) - ny }

end ViewState

/-! ## chart.rs : nice_ticks

`nice_ticks` tests its f64 inputs for finiteness, so its arguments are
modelled by `F64`, a rational tagged with the three non-finite shapes.
`nice_step` uses `10^⌊log10 |raw|⌋`, which on positive rationals is
`Int.log 10` (and stays rational), so the whole function is computable. -/

/-- A model of `f64` sufficient for `nice_ticks`: a finite rational or one of
the non-finite values. -/
inductive F64 where
  | fin (q : ℚ)
  | posInf
  | negInf
  | nan
deriving DecidableEq, Repr

/-- Predicate `f64::is_finite`. -/
def F64.isFinite : F64 → Bool
  | .fin _ => true
  | _ => false

/-- Function `nice_step` from chart.rs: 1-2-5 ladder scaled by the power of ten
at or below `raw` (`base = 10^⌊log10 |raw|⌋`). -/
def nice_step (raw : ℚ) : ℚ :=
  let power : ℤ := Int.log 10 |raw|
  let base : ℚ := (10 : ℚ) ^ power
  let n := raw / base
  let nice : ℚ := if n ≤ 1 then 1 else if n ≤ 2 then 2 else if n ≤ 5 then 5 else 10
  nice * base

/-- The tick-emitting loop of `nice_ticks` (`for _ in 0..target*4`, breaking
once `v > end + step/2`), written with the iteration count as fuel. -/
def niceTicksLoop (endv step : ℚ) : ℕ → ℚ → List ℚ
  | 0, _ => []
  | fuel + 1, v =>
    if v > endv + step * (1/2) then []
    else v :: niceTicksLoop endv step fuel (v + step)

/-- Function `nice_ticks` from chart.rs. -/
def nice_ticks (mn mx : F64) (target : ℕ) : List ℚ :=
  match mn, mx with
  | .fin a, .fin b =>
    if target < 2 then []
    else
      let span := |b - a|
      if span ≤ 0 then [a]
      else
        let raw_step := span / target
        let step := nice_step raw_step
        let start := ⌈a / step⌉ * step
        let endv := ⌊b / step⌋ * step
        niceTicksLoop endv step (target * 4) start
  | _, _ => []

/-! ## downsample.rs : LTTB

`lttb` walks `threshold - 2` interior buckets, keeping per iteration the index
`a` of the previously selected point and pushing `points[max_idx]`.  The
embedding mirrors this with an index-producing loop (`lttbIdxFrom`) and maps
the chosen indices back to points.  Slice indexing `points[k]` (always in
bounds in the Rust code) is `getP`. -/

/-- Slice access `points[k]` on the embedded point list. -/
def getP (pts : List (ℚ × ℚ)) (k : ℕ) : ℚ × ℚ := pts.getD k (0, 0)

/-- Rust `(1.0 + (i as f64) * bucket_size).floor() as usize`. -/
def bStart (bs : ℚ) (i : ℕ) : ℕ := (⌊1 + (i : ℚ) * bs⌋).toNat

/-- Unsigned triangle area (twice), the cross-product magnitude from `lttb`. -/
def triArea (ax ay avgx avgy px py : ℚ) : ℚ :=
  |(ax - px) * (avgy - ay) - (ax - avgx) * (py - ay)|

/-- The inner `for k in start..se` selection loop of `lttb`: strict
improvement (`area > max_area`), first index wins ties. -/
def argmaxLoop (pts : List (ℚ × ℚ)) (ax ay avgx avgy : ℚ) :
    List ℕ → ℚ → ℕ → ℕ
  | [], _, idx => idx
  | k :: ks, best, idx =>
    let p := getP pts k
    let area := triArea ax ay avgx avgy p.1 p.2
    if area > best then argmaxLoop pts ax ay avgx avgy ks area k
    else argmaxLoop pts ax ay avgx avgy ks best idx

/-- One iteration body of `lttb`'s main loop: bucket boundaries, next-bucket
average, then the max-area selection.  `a` is the previously selected index,
`i` the bucket number. -/
def selectIdx (pts : List (ℚ × ℚ)) (n t a i : ℕ) : ℕ :=
  let bs : ℚ := ((n : ℚ) - 2) / ((t : ℚ) - 2)
  let start := bStart bs i
  let endI := min (bStart bs (i + 1)) (n - 1)
  let next_start := endI
  let next_end := min (bStart bs (i + 2)) (n - 1)
  let rs := max next_start 1
  let re := max next_end (rs + 1)
  let cnt := re - rs
  let sumx := ((List.range' rs cnt).map (fun k => (getP pts k).1)).sum
  let sumy := ((List.range' rs cnt).map (fun k => (getP pts k).2)).sum
  let avgx := if cnt = 0 then (getP pts endI).1 else sumx / (cnt : ℚ)
  let avgy := if cnt = 0 then (getP pts endI).2 else sumy / (cnt : ℚ)
  let ax := (getP pts a).1
  let ay := (getP pts a).2
  let se := max endI (start + 1)
  argmaxLoop pts ax ay avgx avgy (List.range' start (se - start)) (-1) start

/-- The main loop of `lttb` (`for i in 0..threshold-2`), producing the list of
selected interior indices starting from bucket `i` with previous anchor `a`. -/
def lttbIdxFrom (pts : List (ℚ × ℚ)) (n t : ℕ) (a i : ℕ) : List ℕ :=
  if i < t - 2 then
    let m := selectIdx pts n t a i
    m :: lttbIdxFrom pts n t m (i + 1)
  else []
termination_by t - 2 - i

/-- All indices `lttb` emits, in order: first point, the loop's selections,
last point. -/
def lttbIndices (pts : List (ℚ × ℚ)) (t : ℕ) : List ℕ :=
  0 :: (lttbIdxFrom pts pts.length t 0 0 ++ [pts.length - 1])

/-- Function `lttb` from downsample.rs. -/
def lttb (points : List (ℚ × ℚ)) (threshold : ℕ) : List (ℚ × ℚ) :=
  let n := points.length
  if threshold = 0 ∨ n = 0 then []
  else if n ≤ threshold ∨ n ≤ 2 then points
  else if threshold = 1 then [getP points 0]
  else
    getP points 0 ::
      ((lttbIdxFrom points n threshold 0 0).map (getP points) ++ [getP points (n - 1)])

/-! ## Theorems -/

/-- C7: `Candle::try_new(t,o,h,l,c)` returns `Ok` with exactly those fields iff
`l ≤ min(o,c)`, `h ≥ max(o,c)` and `l ≤ h`; otherwise it returns one of the
three error kinds. -/
theorem try_new_ok_iff (t o h l c : ℚ) :
    (Candle.try_new t o h l c = Except.ok ⟨t, o, h, l, c⟩ ↔
      (l ≤ min o c ∧ max o c ≤ h ∧ l ≤ h))
    ∧ (¬(l ≤ min o c ∧ max o c ≤ h ∧ l ≤ h) →
        (Candle.try_new t o h l c = Except.error "low above min(open,close)" ∨
         Candle.try_new t o h l c = Except.error "high below max(open,close)" ∨
         Candle.try_new t o h l c = Except.error "low above high")) := by
  simp only [Candle.try_new]
  split_ifs with h1 h2 h3
  · exact ⟨iff_of_false (by simp) (fun hc => absurd h1 (not_lt.mpr hc.1)),
      fun _ => Or.inl rfl⟩
  · exact ⟨iff_of_false (by simp) (fun hc => absurd h2 (not_lt.mpr hc.2.1)),
      fun _ => Or.inr (Or.inl rfl)⟩
  · exact ⟨iff_of_false (by simp) (fun hc => absurd h3 (not_lt.mpr hc.2.2)),
      fun _ => Or.inr (Or.inr rfl)⟩
  · push_neg at h1 h2 h3
    exact ⟨iff_of_true rfl ⟨h1, h2, h3⟩, fun hc => absurd ⟨h1, h2, h3⟩ hc⟩

/-- Witness for C7 at a concrete valid and a concrete invalid candle. -/
theorem try_new_ok_iff_witness :
    Candle.try_new 0 10 12 9 11 = Except.ok ⟨0, 10, 12, 9, 11⟩ ∧
    Candle.try_new 0 10 12 20 11 = Except.error "low above min(open,close)" := by
  exact ⟨(try_new_ok_iff 0 10 12 9 11).1.mpr (by norm_num), rfl⟩

/-- C2: after `TimeScale::zoom_at(p, f)`, the logical value that was under
pixel `p` before the zoom (computed with the pre-zoom spacing) maps back to
pixel `p`, within 1e-3 (exactly, in the rational model). -/
theorem zoom_at_anchor (s : TimeScale) (p f : ℚ) :
    |(s.zoom_at p f).to_px (s.from_px p) - p| ≤ 1/1000 := by
  have hns : clampQ (s.bar_spacing * f) (1/2) 200 ≠ 0 := by
    have h2 : (1/2 : ℚ) ≤ clampQ (s.bar_spacing * f) (1/2) 200 :=
      le_min (le_max_right _ _) (by norm_num)
    exact ne_of_gt (lt_of_lt_of_le (by norm_num) h2)
  simp only [TimeScale.zoom_at, TimeScale.to_px, TimeScale.from_px]
  rw [sub_sub_cancel, div_mul_cancel₀ _ hns]
  simp

/-- Counterexample to C8 as stated: a degenerate (zero-span) finite range does
not yield the empty list — `nice_ticks(1, 1, 5)` returns `[1]`. -/
theorem nice_ticks_degenerate_not_empty :
    nice_ticks (.fin 1) (.fin 1) 5 = [1] ∧ ([1] : List ℚ) ≠ [] := by
  refine ⟨?_, by simp⟩
  simp only [nice_ticks]
  rw [if_neg (by norm_num), if_pos (by norm_num)]

/-- C8 (amended): a non-finite `min` or `max` (or `target < 2`) yields the
empty list; a finite degenerate range (zero span) with `target ≥ 2` yields the
singleton `[min]`. -/
theorem nice_ticks_degenerate (mn mx : F64) (target : ℕ) :
    ((mn.isFinite = false ∨ mx.isFinite = false) → nice_ticks mn mx target = [])
    ∧ (target < 2 → nice_ticks mn mx target = [])
    ∧ (∀ a b : ℚ, mn = .fin a → mx = .fin b → |b - a| ≤ 0 → 2 ≤ target →
        nice_ticks mn mx target = [a]) := by
  refine ⟨?_, ?_, ?_⟩
  · intro hnf
    cases mn <;> cases mx <;> simp_all [nice_ticks, F64.isFinite]
  · intro ht
    cases mn <;> cases mx <;> simp [nice_ticks, ht]
  · rintro a b rfl rfl hspan ht
    simp only [nice_ticks]
    rw [if_neg (by omega : ¬target < 2), if_pos hspan]

/-- Witness for C8 (amended) at concrete inputs. -/
theorem nice_ticks_degenerate_witness :
    nice_ticks .nan (.fin 3) 5 = [] ∧ nice_ticks (.fin 2) (.fin 2) 5 = [2] := by
  refine ⟨(nice_ticks_degenerate .nan (.fin 3) 5).1 (Or.inl rfl), ?_⟩
  exact (nice_ticks_degenerate (.fin 2) (.fin 2) 5).2.2 2 2 rfl rfl (by norm_num) (by norm_num)

/-- Length of the aggregation loop: one output candle per window of `b`,
the final window possibly shorter, i.e. `⌈len / b⌉` outputs. -/
theorem aggLoop_length (b : ℕ) (hb : 1 ≤ b) :
    ∀ N (l : List Candle), l.length ≤ N →
      (aggLoop b l).length = (l.length + b - 1) / b := by
  intro N
  induction N with
  | zero =>
    intro l hl
    have : l = [] := List.length_eq_zero.mp (Nat.le_zero.mp hl)
    subst this
    simp [aggLoop, Nat.div_eq_of_lt (by omega : b - 1 < b)]
  | succ N ih =>
    intro l hl
    match l with
    | [] => simp [aggLoop, Nat.div_eq_of_lt (by omega : b - 1 < b)]
    | d :: ds =>
      rw [aggLoop]
      have hds : (ds.drop (b - 1)).length ≤ N := by
        simp only [List.length_drop]
        simp only [List.length_cons] at hl
        omega
      simp only [List.length_cons, ih (ds.drop (b - 1)) hds, List.length_drop]
      have h2 : ds.length + 1 + b - 1 = ds.length + b := by omega
      rcases Nat.lt_or_ge ds.length (b - 1) with hc | hc
      · rw [Nat.sub_eq_zero_of_le (Nat.le_of_lt hc), h2,
          Nat.add_div_right _ (by omega : 0 < b),
          Nat.div_eq_of_lt (by omega : 0 + b - 1 < b),
          Nat.div_eq_of_lt (by omega : ds.length < b)]
      · have h1 : ds.length - (b - 1) + b - 1 = ds.length := by omega
        rw [h1, h2, Nat.add_div_right _ (by omega : 0 < b)]

/-- Counterexample to C5 as stated: for two candles and bucket 2 the code
returns the list unchanged (length 2), but `⌈2/2⌉ = 1`. -/
theorem aggregate_length_counterexample :
    (aggregate_ohlc_buckets [⟨0, 1, 2, 0, 1⟩, ⟨1, 1, 2, 0, 1⟩] 2).length = 2 ∧
    (2 + 2 - 1) / 2 = 1 := by
  constructor
  · rfl
  · rfl

/-- C5 (amended): for `bucket ≥ 2`, the output length is `⌈n / bucket⌉`
(written `(n + bucket - 1) / bucket` in ℕ) whenever `n > 2`; for `n ≤ 2` the
input is returned unchanged. -/
theorem aggregate_length (data : List Candle) (bucket : ℕ) (hb : 2 ≤ bucket) :
    (2 < data.length →
      (aggregate_ohlc_buckets data bucket).length = (data.length + bucket - 1) / bucket)
    ∧ (data.length ≤ 2 → aggregate_ohlc_buckets data bucket = data) := by
  constructor
  · intro hn
    rw [aggregate_ohlc_buckets, if_neg (by omega)]
    exact aggLoop_length bucket (by omega) data.length data le_rfl
  · intro hn
    rw [aggregate_ohlc_buckets, if_pos (Or.inr hn)]

/-- Witness for C5 (amended): three candles, bucket 2 → two output candles. -/
theorem aggregate_length_witness :
    (aggregate_ohlc_buckets
      [⟨0, 10, 12, 9, 11⟩, ⟨1, 11, 13, 10, 12⟩, ⟨2, 12, 14, 11, 13⟩] 2).length
      = (3 + 2 - 1) / 2 :=
  (aggregate_length _ 2 (by norm_num)).1 (by norm_num)

/-- The running minimum of lows never exceeds its initial value. -/
theorem foldl_min_le_init (rest : List Candle) (a : ℚ) :
    rest.foldl (fun acc k => min acc k.l) a ≤ a := by
  induction rest generalizing a with
  | nil => exact le_rfl
  | cons x xs ih => exact le_trans (ih (min a x.l)) (min_le_left _ _)

/-- The running minimum of lows is below every low in the list. -/
theorem foldl_min_le_mem (rest : List Candle) (a : ℚ) :
    ∀ x ∈ rest, rest.foldl (fun acc k => min acc k.l) a ≤ x.l := by
  induction rest generalizing a with
  | nil => intro x hx; exact absurd hx (List.not_mem_nil x)
  | cons y ys ih =>
    intro x hx
    rcases List.mem_cons.mp hx with rfl | hx
    · exact le_trans (foldl_min_le_init ys (min a x.l)) (min_le_right _ _)
    · exact ih (min a y.l) x hx

/-- The running maximum of highs never drops below its initial value. -/
theorem le_foldl_max_init (rest : List Candle) (a : ℚ) :
    a ≤ rest.foldl (fun acc k => max acc k.h) a := by
  induction rest generalizing a with
  | nil => exact le_rfl
  | cons x xs ih => exact le_trans (le_max_left _ _) (ih (max a x.h))

/-- The running maximum of highs is above every high in the list. -/
theorem le_foldl_max_mem (rest : List Candle) (a : ℚ) :
    ∀ x ∈ rest, x.h ≤ rest.foldl (fun acc k => max acc k.h) a := by
  induction rest generalizing a with
  | nil => intro x hx; exact absurd hx (List.not_mem_nil x)
  | cons y ys ih =>
    intro x hx
    rcases List.mem_cons.mp hx with rfl | hx
    · exact le_trans (le_max_right _ _) (le_foldl_max_init ys (max a x.h))
    · exact ih (max a y.h) x hx

/-- The last candle of a window (`data[j-1]`) is the head or in the tail. -/
theorem getLastD_mem (d : Candle) (rest : List Candle) :
    rest.getLast?.getD d ∈ d :: rest := by
  match rest with
  | [] => simp
  | x :: xs =>
    have h := List.getLast?_eq_getLast (x :: xs) (by simp)
    rw [h]
    exact List.mem_cons_of_mem d (List.getLast_mem _)

/-- One aggregation window preserves the OHLC invariant. -/
theorem mkBucket_valid (first : Candle) (rest : List Candle)
    (hf : first.valid) (hr : ∀ x ∈ rest, x.valid) :
    (mkBucket first rest).valid := by
  obtain ⟨hf1, hf2, hf3⟩ := hf
  have hlast : (rest.getLast?.getD first).valid := by
    rcases List.mem_cons.mp (getLastD_mem first rest) with h | h
    · rw [h]; exact ⟨hf1, hf2, hf3⟩
    · exact hr _ h
  obtain ⟨hl1, hl2, hl3⟩ := hlast
  have hLlast : (mkBucket first rest).l ≤ (rest.getLast?.getD first).l := by
    rcases List.mem_cons.mp (getLastD_mem first rest) with h | h
    · rw [h]; exact foldl_min_le_init rest first.l
    · exact foldl_min_le_mem rest first.l _ h
  have hHlast : (rest.getLast?.getD first).h ≤ (mkBucket first rest).h := by
    rcases List.mem_cons.mp (getLastD_mem first rest) with h | h
    · rw [h]; exact le_foldl_max_init rest first.h
    · exact le_foldl_max_mem rest first.h _ h
  have hLfirst : (mkBucket first rest).l ≤ first.l := foldl_min_le_init rest first.l
  have hHfirst : first.h ≤ (mkBucket first rest).h := le_foldl_max_init rest first.h
  refine ⟨le_min ?_ ?_, max_le ?_ ?_, ?_⟩
  · exact le_trans hLfirst (le_trans hf1 (min_le_left _ _))
  · exact le_trans hLlast (le_trans hl1 (min_le_right _ _))
  · exact le_trans (le_trans (le_max_left _ _) hf2) hHfirst
  · exact le_trans (le_trans (le_max_right _ _) hl2) hHlast
  · exact le_trans hLfirst (le_trans hf3 hHfirst)

/-- The aggregation loop preserves the OHLC invariant. -/
theorem aggLoop_valid (b : ℕ) :
    ∀ N (l : List Candle), l.length ≤ N → (∀ x ∈ l, x.valid) →
      ∀ y ∈ aggLoop b l, y.valid := by
  intro N
  induction N with
  | zero =>
    intro l hl _ y hy
    rw [List.length_eq_zero.mp (Nat.le_zero.mp hl)] at hy
    simp [aggLoop] at hy
  | succ N ih =>
    intro l hl hv y hy
    match l with
    | [] => simp [aggLoop] at hy
    | d :: ds =>
      rw [aggLoop] at hy
      rcases List.mem_cons.mp hy with rfl | hy
      · refine mkBucket_valid d _ (hv d (List.mem_cons_self d ds)) ?_
        intro x hx
        exact hv x (List.mem_cons_of_mem d (List.mem_of_mem_take hx))
      · refine ih (ds.drop (b - 1)) ?_ ?_ y hy
        · simp only [List.length_drop]
          simp only [List.length_cons] at hl
          omega
        · intro x hx
          exact hv x (List.mem_cons_of_mem d (List.mem_of_mem_drop hx))

/-- C6: if every input candle satisfies the OHLC invariant, so does every
candle produced by `aggregate_ohlc_buckets`. -/
theorem aggregate_preserves_valid (data : List Candle) (bucket : ℕ)
    (h : ∀ x ∈ data, x.valid) :
    ∀ y ∈ aggregate_ohlc_buckets data bucket, y.valid := by
  intro y hy
  rw [aggregate_ohlc_buckets] at hy
  split_ifs at hy with hcond
  · exact h y hy
  · exact aggLoop_valid bucket data.length data le_rfl h y hy

/-- Witness for C6: the first aggregated candle of the spec's example is valid. -/
theorem aggregate_preserves_valid_witness : Candle.valid ⟨0, 10, 13, 9, 12⟩ := by
  have hagg : aggregate_ohlc_buckets
      [⟨0, 10, 12, 9, 11⟩, ⟨1, 11, 13, 10, 12⟩, ⟨2, 12, 14, 11, 13⟩] 2
      = [⟨0, 10, 13, 9, 12⟩, ⟨2, 12, 14, 11, 13⟩] := by
    simp [aggregate_ohlc_buckets, aggLoop, mkBucket]
    norm_num
  have hmem : (⟨0, 10, 13, 9, 12⟩ : Candle) ∈ aggregate_ohlc_buckets
      [⟨0, 10, 12, 9, 11⟩, ⟨1, 11, 13, 10, 12⟩, ⟨2, 12, 14, 11, 13⟩] 2 := by
    rw [hagg]; exact List.mem_cons_self _ _
  exact aggregate_preserves_valid _ 2 (by intro x hx; fin_cases hx <;> decide) _ hmem

/-- C9: `ViewState::zoom_at_pixel` multiplies both axis spans by
`factor = clamp(1 - scroll, 0.1, 10)`, and the logical point `(wx, wy)` under
the clamped cursor keeps the same fractional position within each new axis
range that it had within the old one. -/
theorem zoom_at_pixel_anchor (v : ViewState) (scroll cursor_x cursor_y : ℚ)
    (width height : ℤ) (insets : Insets)
    (hx : v.x_min < v.x_max) (hy : v.y_min < v.y_max)
    (factor wx wy : ℚ)
    (hfac : factor = clampQ (1 - scroll) (1/10) 10)
    (hwx : wx = v.x_min +
      (clampQ cursor_x insets.left ((width : ℚ) - insets.right) - insets.left) /
        max (((width : ℚ) - insets.right) - insets.left) 1 * (v.x_max - v.x_min))
    (hwy : wy = v.y_max -
      (clampQ cursor_y insets.top ((height : ℚ) - insets.bottom) - insets.top) /
        max (((height : ℚ) - insets.bottom) - insets.top) 1 * (v.y_max - v.y_min)) :
    ((v.zoom_at_pixel scroll cursor_x cursor_y width height insets).x_max -
      (v.zoom_at_pixel scroll cursor_x cursor_y width height insets).x_min
        = (v.x_max - v.x_min) * factor)
    ∧ ((v.zoom_at_pixel scroll cursor_x cursor_y width height insets).y_max -
      (v.zoom_at_pixel scroll cursor_x cursor_y width height insets).y_min
        = (v.y_max - v.y_min) * factor)
    ∧ ((wx - (v.zoom_at_pixel scroll cursor_x cursor_y width height insets).x_min) /
        ((v.zoom_at_pixel scroll cursor_x cursor_y width height insets).x_max -
          (v.zoom_at_pixel scroll cursor_x cursor_y width height insets).x_min)
        = (wx - v.x_min) / (v.x_max - v.x_min))
    ∧ (((v.zoom_at_pixel scroll cursor_x cursor_y width height insets).y_max - wy) /
        ((v.zoom_at_pixel scroll cursor_x cursor_y width height insets).y_max -
          (v.zoom_at_pixel scroll cursor_x cursor_y width height insets).y_min)
        = (v.y_max - wy) / (v.y_max - v.y_min)) := by
  have hfpos : (0 : ℚ) < factor := by
    rw [hfac]
    exact lt_of_lt_of_le (by norm_num) (le_min (le_max_right _ _) (by norm_num))
  have hxs : v.x_max - v.x_min ≠ 0 := ne_of_gt (sub_pos.mpr hx)
  have hys : v.y_max - v.y_min ≠ 0 := ne_of_gt (sub_pos.mpr hy)
  have hnx : (v.x_max - v.x_min) * factor ≠ 0 := mul_ne_zero hxs (ne_of_gt hfpos)
  have hny : (v.y_max - v.y_min) * factor ≠ 0 := mul_ne_zero hys (ne_of_gt hfpos)
  simp only [ViewState.zoom_at_pixel]
  rw [← hfac, ← hwx, ← hwy]
  refine ⟨by ring, by ring, ?_, ?_⟩
  · rw [show wx - (wx - (wx - v.x_min) / (v.x_max - v.x_min) *
        ((v.x_max - v.x_min) * factor)) = (wx - v.x_min) / (v.x_max - v.x_min) *
        ((v.x_max - v.x_min) * factor) by ring]
    rw [show wx - (wx - v.x_min) / (v.x_max - v.x_min) * ((v.x_max - v.x_min) * factor) +
        (v.x_max - v.x_min) * factor - (wx - (wx - v.x_min) / (v.x_max - v.x_min) *
        ((v.x_max - v.x_min) * factor)) = (v.x_max - v.x_min) * factor by ring]
    exact mul_div_cancel_right₀ _ hnx
  · rw [show wy + (v.y_max - wy) / (v.y_max - v.y_min) * ((v.y_max - v.y_min) * factor) -
        wy = (v.y_max - wy) / (v.y_max - v.y_min) * ((v.y_max - v.y_min) * factor) by ring]
    rw [show wy + (v.y_max - wy) / (v.y_max - v.y_min) * ((v.y_max - v.y_min) * factor) -
        (wy + (v.y_max - wy) / (v.y_max - v.y_min) * ((v.y_max - v.y_min) * factor) -
        (v.y_max - v.y_min) * factor) = (v.y_max - v.y_min) * factor by ring]
    exact mul_div_cancel_right₀ _ hny

/-- Witness for C9 at a concrete view, cursor and scroll amount. -/
theorem zoom_at_pixel_anchor_witness :
    ((ViewState.mk 0 10 0 10).zoom_at_pixel (1/2) 100 100 200 200 ⟨10, 10, 10, 10⟩).x_max -
    ((ViewState.mk 0 10 0 10).zoom_at_pixel (1/2) 100 100 200 200 ⟨10, 10, 10, 10⟩).x_min
      = (10 - 0) * (1/2) :=
  (zoom_at_pixel_anchor ⟨0, 10, 0, 10⟩ (1/2) 100 100 200 200 ⟨10, 10, 10, 10⟩
    (by norm_num) (by norm_num) (1/2) 5 5
    (by norm_num [clampQ]) (by norm_num [clampQ]) (by norm_num [clampQ])).1

/-- The running minimum of lows is the initial value or one of the lows. -/
theorem foldl_min_mem (rest : List Candle) (a : ℚ) :
    rest.foldl (fun acc k => min acc k.l) a = a ∨
      ∃ x ∈ rest, rest.foldl (fun acc k => min acc k.l) a = x.l := by
  induction rest generalizing a with
  | nil => exact Or.inl rfl
  | cons y ys ih =>
    rcases ih (min a y.l) with h | ⟨x, hx, h⟩
    · rcases min_choice a y.l with hm | hm
      · exact Or.inl (by rw [List.foldl_cons, h, hm])
      · exact Or.inr ⟨y, List.mem_cons_self y ys, by rw [List.foldl_cons, h, hm]⟩
    · exact Or.inr ⟨x, List.mem_cons_of_mem y hx, by rw [List.foldl_cons, h]⟩

/-- The running maximum of highs is the initial value or one of the highs. -/
theorem foldl_max_mem (rest : List Candle) (a : ℚ) :
    rest.foldl (fun acc k => max acc k.h) a = a ∨
      ∃ x ∈ rest, rest.foldl (fun acc k => max acc k.h) a = x.h := by
  induction rest generalizing a with
  | nil => exact Or.inl rfl
  | cons y ys ih =>
    rcases ih (max a y.h) with h | ⟨x, hx, h⟩
    · rcases max_choice a y.h with hm | hm
      · exact Or.inl (by rw [List.foldl_cons, h, hm])
      · exact Or.inr ⟨y, List.mem_cons_self y ys, by rw [List.foldl_cons, h, hm]⟩
    · exact Or.inr ⟨x, List.mem_cons_of_mem y hx, by rw [List.foldl_cons, h]⟩

/-- Computing `getLast?` of a nonempty list, split as head and tail. -/
theorem getLast?_cons_eq (d : Candle) (rest : List Candle) :
    (d :: rest).getLast? = some (rest.getLast?.getD d) := by
  match rest with
  | [] => rfl
  | x :: xs =>
    rw [List.getLast?_eq_getLast (x :: xs) (List.cons_ne_nil x xs),
      List.getLast?_eq_getLast (d :: x :: xs) (List.cons_ne_nil d (x :: xs))]
    simp [List.getLast_cons]

/-- The `i`-th output of the aggregation loop is the aggregate of the `i`-th
window `l[i·b .. i·b+b)`. -/
theorem aggLoop_get (b : ℕ) (hb : 1 ≤ b) :
    ∀ N (l : List Candle), l.length ≤ N → ∀ i (hi : i < (aggLoop b l).length),
      ∃ d ds, l.drop (i * b) = d :: ds ∧
        (aggLoop b l).get ⟨i, hi⟩ = mkBucket d (ds.take (b - 1)) := by
  intro N
  induction N with
  | zero =>
    intro l hl i hi
    rw [List.length_eq_zero.mp (Nat.le_zero.mp hl)] at hi
    simp [aggLoop] at hi
  | succ N ih =>
    intro l hl i hi
    match l with
    | [] => simp [aggLoop] at hi
    | d :: ds =>
      match i with
      | 0 =>
        refine ⟨d, ds, by simp, ?_⟩
        have : aggLoop b (d :: ds) =
            mkBucket d (ds.take (b - 1)) :: aggLoop b (ds.drop (b - 1)) := by
          rw [aggLoop]
        rw [List.get_of_eq this]
        rfl
      | i + 1 =>
        have hstep : aggLoop b (d :: ds) =
            mkBucket d (ds.take (b - 1)) :: aggLoop b (ds.drop (b - 1)) := by
          rw [aggLoop]
        have hlen : (ds.drop (b - 1)).length ≤ N := by
          simp only [List.length_drop]
          simp only [List.length_cons] at hl
          omega
        have hi' : i < (aggLoop b (ds.drop (b - 1))).length := by
          have := hi
          rw [hstep] at this
          simpa using this
        obtain ⟨d', ds', hdrop, hget⟩ := ih (ds.drop (b - 1)) hlen i hi'
        refine ⟨d', ds', ?_, ?_⟩
        · rw [List.drop_drop] at hdrop
          rw [add_one_mul, show i * b + b = (b - 1 + i * b) + 1 by omega,
            List.drop_succ_cons]
          exact hdrop
        · rw [List.get_of_eq hstep]
          simpa using hget

/-- C4: for `n > 2` and `bucket ≥ 2`, `aggregate_ohlc_buckets` partitions the
input into sequential windows `data[i·b .. i·b+b)` (the last window possibly
shorter) and each output candle takes `t`/`o` from the window's first candle,
`c` from its last, `h` as the maximum of its highs and `l` as the minimum of
its lows; and the spec's three-candle example with bucket 2 yields exactly
the two stated candles. -/
theorem aggregate_window_spec (data : List Candle) (b : ℕ)
    (hb : 2 ≤ b) (hn : 2 < data.length) :
    (∀ i (hi : i < (aggregate_ohlc_buckets data b).length),
      ∃ first last,
        ((data.drop (i * b)).take b).head? = some first
        ∧ ((data.drop (i * b)).take b).getLast? = some last
        ∧ ((aggregate_ohlc_buckets data b).get ⟨i, hi⟩).t = first.t
        ∧ ((aggregate_ohlc_buckets data b).get ⟨i, hi⟩).o = first.o
        ∧ ((aggregate_ohlc_buckets data b).get ⟨i, hi⟩).c = last.c
        ∧ ((aggregate_ohlc_buckets data b).get ⟨i, hi⟩).h
            ∈ ((data.drop (i * b)).take b).map Candle.h
        ∧ (∀ x ∈ (data.drop (i * b)).take b,
            x.h ≤ ((aggregate_ohlc_buckets data b).get ⟨i, hi⟩).h)
        ∧ ((aggregate_ohlc_buckets data b).get ⟨i, hi⟩).l
            ∈ ((data.drop (i * b)).take b).map Candle.l
        ∧ (∀ x ∈ (data.drop (i * b)).take b,
            ((aggregate_ohlc_buckets data b).get ⟨i, hi⟩).l ≤ x.l))
    ∧ aggregate_ohlc_buckets
        [⟨0, 10, 12, 9, 11⟩, ⟨1, 11, 13, 10, 12⟩, ⟨2, 12, 14, 11, 13⟩] 2
        = [⟨0, 10, 13, 9, 12⟩, ⟨2, 12, 14, 11, 13⟩] := by
  constructor
  · intro i hi
    have hagg : aggregate_ohlc_buckets data b = aggLoop b data := by
      rw [aggregate_ohlc_buckets, if_neg (by omega)]
    have hi' : i < (aggLoop b data).length := by rw [← hagg]; exact hi
    obtain ⟨d, ds, hdrop, hget0⟩ := aggLoop_get b (by omega) data.length data le_rfl i hi'
    have hget : (aggregate_ohlc_buckets data b).get ⟨i, hi⟩ =
        mkBucket d (ds.take (b - 1)) := by
      rw [List.get_of_eq hagg ⟨i, hi⟩]
      exact hget0
    have hwin : (data.drop (i * b)).take b = d :: ds.take (b - 1) := by
      rw [hdrop, show b = (b - 1) + 1 by omega, List.take_succ_cons]
      simp
    refine ⟨d, (ds.take (b - 1)).getLast?.getD d, ?_, ?_, ?_, ?_, ?_, ?_, ?_, ?_, ?_⟩
    · rw [hwin]; rfl
    · rw [hwin]; exact getLast?_cons_eq d (ds.take (b - 1))
    · rw [hget]; rfl
    · rw [hget]; rfl
    · rw [hget]; rfl
    · rw [hget, hwin]
      rcases foldl_max_mem (ds.take (b - 1)) d.h with h | ⟨x, hx, h⟩
      · exact List.mem_map.mpr ⟨d, List.mem_cons_self _ _, h.symm⟩
      · exact List.mem_map.mpr ⟨x, List.mem_cons_of_mem d hx, h.symm⟩
    · rw [hget, hwin]
      intro x hx
      rcases List.mem_cons.mp hx with rfl | hx
      · exact le_foldl_max_init _ x.h
      · exact le_foldl_max_mem _ d.h x hx
    · rw [hget, hwin]
      rcases foldl_min_mem (ds.take (b - 1)) d.l with h | ⟨x, hx, h⟩
      · exact List.mem_map.mpr ⟨d, List.mem_cons_self _ _, h.symm⟩
      · exact List.mem_map.mpr ⟨x, List.mem_cons_of_mem d hx, h.symm⟩
    · rw [hget, hwin]
      intro x hx
      rcases List.mem_cons.mp hx with rfl | hx
      · exact foldl_min_le_init _ x.l
      · exact foldl_min_le_mem _ d.l x hx
  · simp [aggregate_ohlc_buckets, aggLoop, mkBucket]
    norm_num

/-- Witness for C4: the spec's concrete example, via the theorem. -/
theorem aggregate_window_spec_witness :
    aggregate_ohlc_buckets
      [⟨0, 10, 12, 9, 11⟩, ⟨1, 11, 13, 10, 12⟩, ⟨2, 12, 14, 11, 13⟩] 2
      = [⟨0, 10, 13, 9, 12⟩, ⟨2, 12, 14, 11, 13⟩] :=
  (aggregate_window_spec
    [⟨0, 10, 12, 9, 11⟩, ⟨1, 11, 13, 10, 12⟩, ⟨2, 12, 14, 11, 13⟩] 2
    (by norm_num) (by simp)).2

/-- The shared affine inversion step of both `ValueScale` modes. -/
theorem bottom_sub_frac (top bottom px : ℝ) (h1 : top ≤ px) (h2 : px ≤ bottom) :
    bottom - (bottom - px) / (bottom - top) * (bottom - top) = px := by
  rcases eq_or_lt_of_le (le_trans h1 h2) with heq | hlt
  · have hpx : px = bottom := le_antisymm h2 (heq ▸ h1)
    subst hpx
    simp
  · rw [div_mul_cancel₀ _ (sub_ne_zero.mpr (ne_of_gt hlt))]
    exact sub_sub_cancel bottom px

/-- Round trip of the linear mode for arbitrary field values. -/
theorem linear_to_from (top bottom vmin vmax lm lx px : ℝ)
    (h1 : top ≤ px) (h2 : px ≤ bottom) :
    (ValueScale.mk top bottom vmin vmax false lm lx).to_px
      ((ValueScale.mk top bottom vmin vmax false lm lx).from_px px) = px := by
  simp only [ValueScale.to_px, ValueScale.from_px, Bool.false_eq_true, if_false]
  have hsp : max (vmax - vmin) 1e-12 ≠ 0 :=
    ne_of_gt (lt_of_lt_of_le (by norm_num) (le_max_right _ _))
  rw [add_sub_cancel_left, mul_div_assoc, div_self hsp, mul_one]
  exact bottom_sub_frac top bottom px h1 h2

/-- Round trip of the log10 mode as constructed by `new_log10`. -/
theorem log_to_from (top bottom vmin vmax px : ℝ)
    (h1 : top ≤ px) (h2 : px ≤ bottom) :
    (ValueScale.new_log10 top bottom vmin vmax).to_px
      ((ValueScale.new_log10 top bottom vmin vmax).from_px px) = px := by
  simp only [ValueScale.new_log10, ValueScale.to_px, ValueScale.from_px, if_true]
  set v1 : ℝ := if vmin ≤ 1e-12 then 1e-12 else vmin with hv1
  set v2 : ℝ := if vmax ≤ v1 then v1 * 10 else vmax with hv2
  have hv1eps : (1e-12 : ℝ) ≤ v1 := by
    rw [hv1]; split_ifs with h
    · exact le_rfl
    · exact le_of_not_le h
  have hv1pos : (0 : ℝ) < v1 := lt_of_lt_of_le (by norm_num) hv1eps
  set span : ℝ := max (Real.logb 10 v2 - Real.logb 10 v1) 1e-12 with hspan
  have hsppos : (0 : ℝ) < span :=
    lt_of_lt_of_le (by norm_num) (le_max_right _ _)
  set r : ℝ := (bottom - px) / (bottom - top) with hr
  have hr0 : 0 ≤ r := by
    rcases eq_or_lt_of_le (le_trans h1 h2) with heq | hlt
    · have hpx : px = bottom := le_antisymm h2 (heq ▸ h1)
      rw [hr, hpx, sub_self, zero_div]
    · exact div_nonneg (sub_nonneg.mpr h2) (le_of_lt (sub_pos.mpr hlt))
  have hyy : Real.logb 10 v1 ≤ Real.logb 10 v1 + r * span :=
    le_add_of_nonneg_right (mul_nonneg hr0 (le_of_lt hsppos))
  have hpow : (1e-12 : ℝ) ≤ (10 : ℝ) ^ (Real.logb 10 v1 + r * span) := by
    calc (1e-12 : ℝ) ≤ v1 := hv1eps
    _ = (10 : ℝ) ^ Real.logb 10 v1 :=
        (Real.rpow_logb (by norm_num) (by norm_num) hv1pos).symm
    _ ≤ (10 : ℝ) ^ (Real.logb 10 v1 + r * span) :=
        (Real.rpow_le_rpow_left_iff (by norm_num)).mpr hyy
  rw [max_eq_left hpow,
    Real.logb_rpow (by norm_num : (0:ℝ) < 10) (by norm_num : (10:ℝ) ≠ 1),
    add_sub_cancel_left, mul_div_assoc, div_self (ne_of_gt hsppos), mul_one]
  exact bottom_sub_frac top bottom px h1 h2

/-- C3: for every `ValueScale` built by `new_linear` or `new_log10` and every
pixel `px` in `[top_px, bottom_px]`, `to_px (from_px px)` equals `px` within
1e-3 (exactly, in the real model), in both Linear and Log10 modes. -/
theorem value_scale_roundtrip (top bottom vmin vmax px : ℝ)
    (h1 : top ≤ px) (h2 : px ≤ bottom) :
    |(ValueScale.new_linear top bottom vmin vmax).to_px
      ((ValueScale.new_linear top bottom vmin vmax).from_px px) - px| ≤ 1/1000
    ∧ |(ValueScale.new_log10 top bottom vmin vmax).to_px
      ((ValueScale.new_log10 top bottom vmin vmax).from_px px) - px| ≤ 1/1000 := by
  constructor
  · have heq : (ValueScale.new_linear top bottom vmin vmax).to_px
        ((ValueScale.new_linear top bottom vmin vmax).from_px px) = px := by
      rw [ValueScale.new_linear]
      split_ifs with hdeg
      · exact linear_to_from top bottom vmin (vmin + 1) 0 0 px h1 h2
      · exact linear_to_from top bottom vmin vmax 0 0 px h1 h2
    rw [heq, sub_self, abs_zero]
    norm_num
  · rw [log_to_from top bottom vmin vmax px h1 h2, sub_self, abs_zero]
    norm_num

/-- Witness for C3 at a concrete scale and pixel. -/
theorem value_scale_roundtrip_witness :
    |(ValueScale.new_linear 0 100 1 1000).to_px
      ((ValueScale.new_linear 0 100 1 1000).from_px 40) - 40| ≤ 1/1000
    ∧ |(ValueScale.new_log10 0 100 1 1000).to_px
      ((ValueScale.new_log10 0 100 1 1000).from_px 40) - 40| ≤ 1/1000 :=
  value_scale_roundtrip 0 100 1 1000 40 (by norm_num) (by norm_num)

/-- The selection loop returns its initial candidate or a scanned index. -/
theorem argmaxLoop_mem (pts : List (ℚ × ℚ)) (ax ay avgx avgy : ℚ) :
    ∀ (ks : List ℕ) (best : ℚ) (idx : ℕ),
      argmaxLoop pts ax ay avgx avgy ks best idx = idx ∨
        argmaxLoop pts ax ay avgx avgy ks best idx ∈ ks := by
  intro ks
  induction ks with
  | nil => intro best idx; exact Or.inl rfl
  | cons k ks ih =>
    intro best idx
    simp only [argmaxLoop]
    split_ifs with h
    · rcases ih (triArea ax ay avgx avgy (getP pts k).1 (getP pts k).2) k with h' | h'
      · exact Or.inr (by rw [h']; exact List.mem_cons_self k ks)
      · exact Or.inr (List.mem_cons_of_mem k h')
    · rcases ih best idx with h' | h'
      · exact Or.inl h'
      · exact Or.inr (List.mem_cons_of_mem k h')

/-- For `3 ≤ t < n` the interior bucket width `(n-2)/(t-2)` is at least 1. -/
theorem bs_ge_one (n t : ℕ) (h3 : 3 ≤ t) (htn : t < n) :
    1 ≤ ((n : ℚ) - 2) / ((t : ℚ) - 2) := by
  have ht2 : (0 : ℚ) < (t : ℚ) - 2 := by
    have : (3 : ℚ) ≤ (t : ℚ) := by exact_mod_cast h3
    linarith
  rw [le_div_iff₀ ht2]
  have : (t : ℚ) < (n : ℚ) := by exact_mod_cast htn
  linarith

/-- The first bucket starts at index 1. -/
theorem bStart_zero (bs : ℚ) : bStart bs 0 = 1 := by
  simp [bStart]

/-- Bucket start indices are strictly increasing when the width is ≥ 1. -/
theorem bStart_strict (bs : ℚ) (hbs : 1 ≤ bs) (i : ℕ) :
    bStart bs i + 1 ≤ bStart bs (i + 1) := by
  unfold bStart
  have hq : (1 : ℚ) + (i : ℚ) * bs + 1 ≤ 1 + ((i : ℕ) + 1 : ℕ) * bs := by
    push_cast
    nlinarith [Nat.cast_nonneg (α := ℚ) i]
  have hfl : ⌊(1 : ℚ) + (i : ℚ) * bs⌋ + 1 ≤ ⌊(1 : ℚ) + ((i : ℕ) + 1 : ℕ) * bs⌋ := by
    rw [← Int.floor_add_one]
    exact Int.floor_le_floor hq
  have hnn : (0 : ℤ) ≤ ⌊(1 : ℚ) + (i : ℚ) * bs⌋ := by
    rw [Int.le_floor]
    push_cast
    nlinarith [Nat.cast_nonneg (α := ℚ) i]
  omega

/-- Every bucket start of an interior bucket is at most `n - 2`. -/
theorem bStart_le (n t : ℕ) (h3 : 3 ≤ t) (htn : t < n) (i : ℕ) (hi : i < t - 2) :
    bStart (((n : ℚ) - 2) / ((t : ℚ) - 2)) i ≤ n - 2 := by
  have ht2 : (0 : ℚ) < (t : ℚ) - 2 := by
    have : (3 : ℚ) ≤ (t : ℚ) := by exact_mod_cast h3
    linarith
  have hbs0 : (0 : ℚ) < ((n : ℚ) - 2) / ((t : ℚ) - 2) := by
    apply div_pos _ ht2
    have : (t : ℚ) < (n : ℚ) := by exact_mod_cast htn
    linarith
  have himul : ((i : ℚ)) * (((n : ℚ) - 2) / ((t : ℚ) - 2)) <
      ((t : ℚ) - 2) * (((n : ℚ) - 2) / ((t : ℚ) - 2)) := by
    apply mul_lt_mul_of_pos_right _ hbs0
    have hi' : (i : ℚ) < ((t : ℚ) - 2) := by
      have : ((i : ℕ) : ℚ) < ((t - 2 : ℕ) : ℚ) := by exact_mod_cast hi
      rw [Nat.cast_sub (by omega)] at this
      exact_mod_cast this
    exact hi'
  have hcancel : ((t : ℚ) - 2) * (((n : ℚ) - 2) / ((t : ℚ) - 2)) = (n : ℚ) - 2 :=
    mul_div_cancel₀ _ (ne_of_gt ht2)
  have hlt : (1 : ℚ) + (i : ℚ) * (((n : ℚ) - 2) / ((t : ℚ) - 2)) <
      (((n : ℤ) - 1 : ℤ) : ℚ) := by
    push_cast
    rw [hcancel] at himul
    linarith
  have hfl : ⌊(1 : ℚ) + (i : ℚ) * (((n : ℚ) - 2) / ((t : ℚ) - 2))⌋ < (n : ℤ) - 1 :=
    Int.floor_lt.mpr hlt
  unfold bStart
  omega

/-- Raw bounds on `selectIdx`: it lies in `[start, max(end, start+1))`. -/
theorem selectIdx_bounds (pts : List (ℚ × ℚ)) (n t a i : ℕ) :
    bStart (((n : ℚ) - 2) / ((t : ℚ) - 2)) i ≤ selectIdx pts n t a i ∧
      selectIdx pts n t a i <
        max (min (bStart (((n : ℚ) - 2) / ((t : ℚ) - 2)) (i + 1)) (n - 1))
          (bStart (((n : ℚ) - 2) / ((t : ℚ) - 2)) i + 1) := by
  simp only [selectIdx]
  set start := bStart (((n : ℚ) - 2) / ((t : ℚ) - 2)) i with hstart
  set se := max (min (bStart (((n : ℚ) - 2) / ((t : ℚ) - 2)) (i + 1)) (n - 1)) (start + 1)
    with hse
  have hse1 : start + 1 ≤ se := le_max_right _ _
  rcases argmaxLoop_mem pts (getP pts a).1 (getP pts a).2 _ _
    (List.range' start (se - start)) (-1) start with h | h
  · exact ⟨le_of_eq h.symm, by omega⟩
  · have := List.mem_range'_1.mp h
    exact ⟨this.1, by omega⟩

/-- Refined bounds on `selectIdx` for interior buckets. -/
theorem selectIdx_lt (pts : List (ℚ × ℚ)) (n t a i : ℕ)
    (h3 : 3 ≤ t) (htn : t < n) (hi : i < t - 2) :
    bStart (((n : ℚ) - 2) / ((t : ℚ) - 2)) i ≤ selectIdx pts n t a i
    ∧ selectIdx pts n t a i < bStart (((n : ℚ) - 2) / ((t : ℚ) - 2)) (i + 1)
    ∧ selectIdx pts n t a i ≤ n - 2 := by
  obtain ⟨hlo, hhi⟩ := selectIdx_bounds pts n t a i
  have hstep := bStart_strict _ (bs_ge_one n t h3 htn) i
  have hle := bStart_le n t h3 htn i hi
  rcases lt_max_iff.mp hhi with h | h
  · have h1 := lt_of_lt_of_le h (min_le_left _ _)
    have h2 := lt_of_lt_of_le h (min_le_right _ _)
    exact ⟨hlo, h1, by omega⟩
  · exact ⟨hlo, by omega, by omega⟩

/-- The main loop executes exactly `t - 2 - i` more iterations. -/
theorem lttbIdxFrom_length (pts : List (ℚ × ℚ)) (n t : ℕ) :
    ∀ K i a, t - 2 - i ≤ K → (lttbIdxFrom pts n t a i).length = t - 2 - i := by
  intro K
  induction K with
  | zero =>
    intro i a hK
    rw [lttbIdxFrom, if_neg (by omega)]
    simp
    omega
  | succ K ih =>
    intro i a hK
    by_cases hi : i < t - 2
    · rw [lttbIdxFrom, if_pos hi]
      simp only [List.length_cons, ih (i + 1) _ (by omega)]
      omega
    · rw [lttbIdxFrom, if_neg hi]
      simp
      omega

/-- Loop invariant: from bucket `i` with previous anchor `a < start(i)`, the
emitted indices are strictly increasing above `a` and all at most `n - 2`. -/
theorem lttbIdxFrom_invariant (pts : List (ℚ × ℚ)) (n t : ℕ)
    (h3 : 3 ≤ t) (htn : t < n) :
    ∀ K i a, t - 2 - i ≤ K →
      a < bStart (((n : ℚ) - 2) / ((t : ℚ) - 2)) i →
      List.Chain' (· < ·) (a :: lttbIdxFrom pts n t a i)
      ∧ ∀ m ∈ lttbIdxFrom pts n t a i, m ≤ n - 2 := by
  intro K
  induction K with
  | zero =>
    intro i a hK _
    rw [lttbIdxFrom, if_neg (by omega)]
    exact ⟨List.chain'_singleton a, by simp⟩
  | succ K ih =>
    intro i a hK ha
    by_cases hi : i < t - 2
    · rw [lttbIdxFrom, if_pos hi]
      obtain ⟨hlo, hnext, hn2⟩ := selectIdx_lt pts n t a i h3 htn hi
      obtain ⟨hchain, hmem⟩ := ih (i + 1) (selectIdx pts n t a i) (by omega) hnext
      refine ⟨List.chain'_cons.mpr ⟨lt_of_lt_of_le ha hlo, hchain⟩, ?_⟩
      intro m hm
      rcases List.mem_cons.mp hm with rfl | hm
      · exact hn2
      · exact hmem m hm
    · rw [lttbIdxFrom, if_neg hi]
      exact ⟨List.chain'_singleton a, by simp⟩

/-- A nonempty list's `head?` is its element at index 0. -/
theorem head?_eq_getP (pts : List (ℚ × ℚ)) (h : pts ≠ []) :
    pts.head? = some (getP pts 0) := by
  match pts with
  | [] => exact absurd rfl h
  | x :: xs => rfl

/-- A nonempty list's `getLast?` is its element at index `length - 1`. -/
theorem getLast?_eq_getP (pts : List (ℚ × ℚ)) (h : pts ≠ []) :
    pts.getLast? = some (getP pts (pts.length - 1)) := by
  match pts with
  | [x] => rfl
  | x :: y :: xs =>
    rw [List.getLast?_cons_cons, getLast?_eq_getP (y :: xs) (List.cons_ne_nil y xs)]
    simp only [List.length_cons, getP, Nat.add_sub_cancel]
    rw [List.getD_cons_succ]

/-- C1: for `n > 2` and `t ≥ 2`, `lttb` returns exactly `min(n, t)` points and
keeps the first and last input point. -/
theorem lttb_length_endpoints (pts : List (ℚ × ℚ)) (t : ℕ)
    (hn : 2 < pts.length) (ht : 2 ≤ t) :
    (lttb pts t).length = min pts.length t
    ∧ (lttb pts t).head? = pts.head?
    ∧ (lttb pts t).getLast? = pts.getLast? := by
  have hne : pts ≠ [] := List.ne_nil_of_length_pos (by omega)
  by_cases hc : pts.length ≤ t
  · rw [lttb]
    simp only [if_neg (show ¬(t = 0 ∨ pts.length = 0) by omega), if_pos (Or.inl hc)]
    exact ⟨(min_eq_left hc).symm, trivial, trivial⟩
  · push_neg at hc
    rw [lttb]
    simp only [if_neg (show ¬(t = 0 ∨ pts.length = 0) by omega),
      if_neg (show ¬(pts.length ≤ t ∨ pts.length ≤ 2) by omega),
      if_neg (show ¬t = 1 by omega)]
    refine ⟨?_, ?_, ?_⟩
    · simp only [List.length_cons, List.length_append, List.length_map,
        List.length_singleton, List.length_nil, Nat.sub_zero,
        lttbIdxFrom_length pts pts.length t (t - 2) 0 0 le_rfl]
      rw [min_eq_right (le_of_lt hc)]
      omega
    · rw [head?_eq_getP pts hne]
      rfl
    · rw [getLast?_eq_getP pts hne,
        show getP pts 0 :: ((lttbIdxFrom pts pts.length t 0 0).map (getP pts) ++
          [getP pts (pts.length - 1)]) =
          (getP pts 0 :: (lttbIdxFrom pts pts.length t 0 0).map (getP pts)) ++
          [getP pts (pts.length - 1)] from rfl,
        List.getLast?_concat]

/-- Witness for C1: the spec's six-point parabola example with threshold 4. -/
theorem lttb_length_endpoints_witness :
    (lttb [((0 : ℚ), (0 : ℚ)), (1, 1), (2, 4), (3, 9), (4, 16), (5, 25)] 4).length
      = min ([((0 : ℚ), (0 : ℚ)), (1, 1), (2, 4), (3, 9), (4, 16), (5, 25)]).length 4 :=
  (lttb_length_endpoints _ 4 (by simp) (by norm_num)).1

/-- C10: for `2 ≤ t < n`, `lttb` returns exactly the input points at the
strictly increasing index list `lttbIndices`, which starts at 0, ends at
`n - 1`, and stays in bounds. -/
theorem lttb_subsequence (pts : List (ℚ × ℚ)) (t : ℕ)
    (ht : 2 ≤ t) (htn : t < pts.length) :
    lttb pts t = (lttbIndices pts t).map (getP pts)
    ∧ List.Chain' (· < ·) (lttbIndices pts t)
    ∧ (lttbIndices pts t).head? = some 0
    ∧ (lttbIndices pts t).getLast? = some (pts.length - 1)
    ∧ ∀ k ∈ lttbIndices pts t, k < pts.length := by
  have hn3 : 2 < pts.length := by omega
  have hidx : List.Chain' (· < ·) (0 :: lttbIdxFrom pts pts.length t 0 0)
      ∧ ∀ m ∈ lttbIdxFrom pts pts.length t 0 0, m ≤ pts.length - 2 := by
    rcases eq_or_lt_of_le ht with rfl | h3
    · rw [lttbIdxFrom, if_neg (by omega)]
      exact ⟨List.chain'_singleton 0, by simp⟩
    · exact lttbIdxFrom_invariant pts pts.length t (by omega) htn (t - 2) 0 0 le_rfl
        (by rw [bStart_zero]; omega)
  refine ⟨?_, ?_, rfl, ?_, ?_⟩
  · rw [lttb, lttbIndices]
    simp only [if_neg (show ¬(t = 0 ∨ pts.length = 0) by omega),
      if_neg (show ¬(pts.length ≤ t ∨ pts.length ≤ 2) by omega),
      if_neg (show ¬t = 1 by omega), List.map_cons, List.map_append]
    rfl
  · rw [lttbIndices, show (0 : ℕ) :: (lttbIdxFrom pts pts.length t 0 0 ++
        [pts.length - 1]) = (0 :: lttbIdxFrom pts pts.length t 0 0) ++
        [pts.length - 1] from rfl]
    rw [List.chain'_append]
    refine ⟨hidx.1, List.chain'_singleton _, ?_⟩
    intro x hx y hy
    simp only [List.head?_cons, Option.mem_def, Option.some.injEq] at hy
    subst hy
    obtain ⟨hne, hxeq⟩ := List.mem_getLast?_eq_getLast hx
    subst hxeq
    rcases List.mem_cons.mp (List.getLast_mem hne) with heq | hmem
    · rw [heq]
      omega
    · have := hidx.2 _ hmem
      omega
  · rw [lttbIndices, show (0 : ℕ) :: (lttbIdxFrom pts pts.length t 0 0 ++
        [pts.length - 1]) = (0 :: lttbIdxFrom pts pts.length t 0 0) ++
        [pts.length - 1] from rfl, List.getLast?_concat]
  · intro k hk
    rw [lttbIndices] at hk
    rcases List.mem_cons.mp hk with rfl | hk
    · omega
    · rcases List.mem_append.mp hk with hk | hk
      · have := hidx.2 k hk
        omega
      · simp only [List.mem_singleton] at hk
        subst hk
        omega

/-- Witness for C10: on the spec's example the selected index list ends at the
last input index. -/
theorem lttb_subsequence_witness :
    (lttbIndices [((0 : ℚ), (0 : ℚ)), (1, 1), (2, 4), (3, 9), (4, 16), (5, 25)] 4).getLast?
      = some ([((0 : ℚ), (0 : ℚ)), (1, 1), (2, 4), (3, 9), (4, 16), (5, 25)].length - 1) :=
  (lttb_subsequence _ 4 (by norm_num) (by simp)).2.2.2.1

end ChartCore
